import Mathlib

/-!
Verification of the dice-notation module of `solo-ttrpg-helper`
(`src/dice/mod.rs`).

Strings are modelled as `List Char`.  Rust's `str::trim` is modelled over
ASCII whitespace; the machine-integer types are modelled as `Nat`/`Int`
together with the exact range checks performed by Rust's integer `FromStr`
(`u16` for side counts, `usize` for die counts, `i32` for modifiers), and
`i32` addition of modifiers is modelled as two's-complement wrap-around
(`wrap32`).  Randomness (`rand::thread_rng`) is modelled by an explicit
sample oracle `g : Nat -> Nat` giving the value of the k-th draw.
-/

namespace SoloDice

/-- ASCII whitespace, modelling the characters `str::trim` removes on the
inputs this program deals with. -/
def isWs (c : Char) : Bool :=
  c = ' ' || c = '\t' || c = '\n' || c = '\r'

/-- ASCII digit test, as accepted by Rust's integer `FromStr`. -/
def isDigitChar (c : Char) : Bool :=
  48 ≤ c.toNat && c.toNat ≤ 57

/-- Model of Rust's `str::trim`. -/
def trimChars (s : List Char) : List Char :=
  ((s.dropWhile isWs).reverse.dropWhile isWs).reverse

/-- Model of Rust's `str::split` with a single-character pattern:
`"".split(p) = [""]`, `"a+".split('+') = ["a", ""]`, etc. -/
def splitOnChar (sep : Char) : List Char → List (List Char)
  | [] => [[]]
  | c :: rest =>
    if c = sep then [] :: splitOnChar sep rest
    else
      match splitOnChar sep rest with
      | [] => [[c]]
      | t :: ts => (c :: t) :: ts

/-- Numeric value of a digit string, most significant digit first. -/
def digitsToNat (s : List Char) : Nat :=
  s.foldl (fun acc c => acc * 10 + (c.toNat - 48)) 0

/-- Value of a non-empty all-digit string; `none` otherwise. -/
def digitsVal (s : List Char) : Option Nat :=
  if !s.isEmpty && s.all isDigitChar then some (digitsToNat s) else none

/-- Model of Rust's `FromStr` for unsigned integers with maximum value
`bound`: an optional leading `'+'`, then one or more digits, and the value
must not exceed `bound` (otherwise `PosOverflow`).  A leading `'-'` is
rejected for unsigned types. -/
def parseUnsignedBounded (bound : Nat) (s : List Char) : Option Nat :=
  let ds := if s.head? = some '+' then s.tail else s
  match digitsVal ds with
  | some v => if v ≤ bound then some v else none
  | none => none

/-- Rust `u16::from_str` (the `Sides` type). -/
def parseU16 (s : List Char) : Option Nat :=
  parseUnsignedBounded 65535 s

/-- Rust `usize::from_str` on a 64-bit target (the die-count type). -/
def parseUsize (s : List Char) : Option Nat :=
  parseUnsignedBounded (2 ^ 64 - 1) s

/-- Rust `i32::from_str` (the `Modifier` type): optional sign, digits,
value in `[-2^31, 2^31 - 1]`. -/
def parseI32 (s : List Char) : Option Int :=
  if s.head? = some '-' then
    match digitsVal s.tail with
    | some v => if v ≤ 2 ^ 31 then some (-(v : Int)) else none
    | none => none
  else if s.head? = some '+' then
    match digitsVal s.tail with
    | some v => if v ≤ 2 ^ 31 - 1 then some (v : Int) else none
    | none => none
  else
    match digitsVal s with
    | some v => if v ≤ 2 ^ 31 - 1 then some (v : Int) else none
    | none => none

/-- The decimal digit character for `n % 10`-sized values. -/
def digitChar (n : Nat) : Char :=
  match n with
  | 0 => '0' | 1 => '1' | 2 => '2' | 3 => '3' | 4 => '4'
  | 5 => '5' | 6 => '6' | 7 => '7' | 8 => '8' | _ => '9'

/-- Fuel-driven decimal rendering of a natural number (most significant
digit first), modelling Rust's `Display` for unsigned integers.  The fuel
is always sufficient when it exceeds the number being printed. -/
def natToCharsAux : Nat → Nat → List Char → List Char
  | 0, _, acc => acc
  | fuel + 1, n, acc =>
    if n < 10 then digitChar n :: acc
    else natToCharsAux fuel (n / 10) (digitChar (n % 10) :: acc)

/-- Decimal rendering of a natural number. -/
def natToChars (n : Nat) : List Char :=
  natToCharsAux (n + 1) n []

/-- Decimal rendering of an integer, modelling Rust's `Display` for `i32`. -/
def intToChars (z : Int) : List Char :=
  if z < 0 then '-' :: natToChars z.natAbs else natToChars z.toNat

/-- Model of Rust's `[String]::join`. -/
def joinSep (sep : List Char) : List (List Char) → List Char
  | [] => []
  | [x] => x
  | x :: xs => x ++ sep ++ joinSep sep xs

/-- Two's-complement reduction of an integer into the `i32` range,
modelling `i32` wrap-around addition. -/
def wrap32 (z : Int) : Int :=
  (z + 2 ^ 31) % 2 ^ 32 - 2 ^ 31

/-- `DiceError` from `src/dice/mod.rs`: the single `Unparseable` variant
carrying the offending text. -/
inductive DiceError where
  | Unparseable : List Char → DiceError
deriving DecidableEq

/-- `Die { sides: Sides }`; `Sides = u16` is modelled as `Nat` (every value
produced by parsing is `≤ 65535`). -/
structure Die where
  sides : Nat
deriving DecidableEq

/-- `impl FromStr for Die`: trim, require a leading `'d'`, strip every
leading `'d'` (`trim_start_matches`), and parse the remainder as `u16`;
any failure is `Unparseable` carrying the original input. -/
def Die.fromStr (s : List Char) : Except DiceError Die :=
  if (trimChars s).head? = some 'd' then
    match parseU16 ((trimChars s).dropWhile (· = 'd')) with
    | some n => .ok ⟨n⟩
    | none => .error (.Unparseable s)
  else .error (.Unparseable s)

/-- `impl Display for Die`: `d<sides>`. -/
def Die.toChars (d : Die) : List Char :=
  'd' :: natToChars d.sides

/-- `enum DiceSpecPart`: a die-term (die plus count) or a flat modifier. -/
inductive DiceSpecPart where
  | die : Die → Nat → DiceSpecPart
  | modifier : Int → DiceSpecPart
deriving DecidableEq

/-- `impl FromStr for DiceSpecPart`: a segment containing `'d'` is split on
`'d'` and must give exactly two pieces; an empty first piece means count 1,
otherwise the first piece parses as `usize`; the die is parsed from
`"d" ++ second piece` by `Die::from_str`.  A segment without `'d'` must
parse as an `i32` modifier. -/
def DiceSpecPart.fromStr (s : List Char) : Except DiceError DiceSpecPart :=
  if s.contains 'd' then
    match splitOnChar 'd' s with
    | [p0, p1] =>
      match (if p0.isEmpty then .ok 1
             else
               match parseUsize p0 with
               | some c => .ok c
               | none => .error (.Unparseable s) : Except DiceError Nat) with
      | .error e => .error e
      | .ok count =>
        match Die.fromStr ('d' :: p1) with
        | .ok d => .ok (.die d count)
        | .error e => .error e
    | _ => .error (.Unparseable s)
  else
    match parseI32 s with
    | some m => .ok (.modifier m)
    | none => .error (.Unparseable s)

/-- `struct Dice`: the parsed expression — `counts` is the ordered list of
`(sides, count)` groups, `modifier` the optional aggregated modifier. -/
structure Dice where
  counts : List (Nat × Nat)
  modifier : Option Int
deriving DecidableEq

/-- The sort key order used by `Dice::new`:
`sort_by_key(|pair| -(pair.0 as SignedSides))`, i.e. ascending by the
negated side count. -/
def newLe (a b : Nat × Nat) : Prop :=
  -(a.1 : Int) ≤ -(b.1 : Int)

instance : DecidableRel newLe := fun a b => by
  unfold newLe; infer_instance

/-- `Dice::new`: stable sort of the groups by descending side count
(`Vec::sort_by_key` is stable; `List.insertionSort` has exactly its
stability behaviour), modifier kept unchanged. -/
def Dice.new (counts : List (Nat × Nat)) (modifier : Option Int) : Dice :=
  ⟨List.insertionSort newLe counts, modifier⟩

/-- The loop body of `impl FromStr for Dice`: fold the parsed segments,
pushing die-terms in order and accumulating modifier terms (`i32`
addition, hence `wrap32`). -/
def diceFromStrAux :
    List (List Char) → List (Nat × Nat) → Option Int → Except DiceError Dice
  | [], dice, totalMod => .ok ⟨dice, totalMod⟩
  | p :: rest, dice, totalMod =>
    match DiceSpecPart.fromStr p with
    | .error e => .error e
    | .ok (.die d c) => diceFromStrAux rest (dice ++ [(d.sides, c)]) totalMod
    | .ok (.modifier m) =>
      match totalMod with
      | some curr => diceFromStrAux rest dice (some (wrap32 (curr + m)))
      | none => diceFromStrAux rest dice (some m)

/-- `impl FromStr for Dice`: split on `"+"`, trim each segment, parse each
as a `DiceSpecPart`, failing fast on the first error. -/
def Dice.fromStr (s : List Char) : Except DiceError Dice :=
  diceFromStrAux ((splitOnChar '+' s).map trimChars) [] none

/-- One rendered group of `impl Display for Dice`:
`format!("{}{}", count, Die { sides })` = `<count>d<sides>`. -/
def renderGroup (p : Nat × Nat) : List Char :=
  natToChars p.2 ++ 'd' :: natToChars p.1

/-- `impl Display for Dice`: the groups rendered and joined with `" + "`,
then — with no separating space — `format!("+ {}", m)` when the modifier
is present. -/
def Dice.toChars (d : Dice) : List Char :=
  joinSep (' ' :: '+' :: [' ']) (d.counts.map renderGroup) ++
    (match d.modifier with
     | some m => '+' :: ' ' :: intToChars m
     | none => [])

/-- `Dice::roll`'s inner loops: for each `(sides, count)` group in order,
push `count` pairs of the group's die with consecutive samples from the
oracle `g`. -/
def rollsOf (g : Nat → Nat) : List (Nat × Nat) → List (Die × Nat)
  | [] => []
  | (s, c) :: rest =>
    (List.range c).map (fun i => (⟨s⟩, g i)) ++
      rollsOf (fun k => g (k + c)) rest

/-- `struct RollResult`: every individual `(Die, value)` outcome plus the
modifier (already defaulted to 0 when absent). -/
structure RollResult where
  rolls : List (Die × Nat)
  modifier : Int
deriving DecidableEq

/-- `Dice::roll`, with the entropy source made explicit: `g k` is the
value of the k-th draw. -/
def Dice.roll (d : Dice) (g : Nat → Nat) : RollResult :=
  ⟨rollsOf g d.counts, d.modifier.getD 0⟩

/-- `RollResult::total`: the sum of the sampled values (each cast
`as i32`) plus the modifier. -/
def RollResult.total (r : RollResult) : Int :=
  (r.rolls.map (fun p => (p.2 : Int))).sum + r.modifier

/-- Whether an `Except` result is a success. -/
def exceptIsOk {α : Type} : Except DiceError α → Bool
  | .ok _ => true
  | .error _ => false

/-- The trimmed `'+'`-separated segments of an input, as seen by
`Dice::from_str`. -/
def segsOf (s : List Char) : List (List Char) :=
  (splitOnChar '+' s).map trimChars

/-- The `(sides, count)` pair of a segment, when it parses as a die-term. -/
def dieProj (p : List Char) : Option (Nat × Nat) :=
  match DiceSpecPart.fromStr p with
  | .ok (.die d c) => some (d.sides, c)
  | _ => none

/-- The value of a segment, when it parses as a modifier-term. -/
def modProj (p : List Char) : Option Int :=
  match DiceSpecPart.fromStr p with
  | .ok (.modifier m) => some m
  | _ => none

/-- The die-terms of an input, in encounter order: one `(sides, count)`
per segment that parses as a die-term. -/
def dieTermsOf (s : List Char) : List (Nat × Nat) :=
  (segsOf s).filterMap dieProj

/-- The modifier terms of an input, in encounter order: the value of each
segment that parses as a modifier-term. -/
def modTermsOf (s : List Char) : List Int :=
  (segsOf s).filterMap modProj

/-- The modifier-accumulation loop of `Dice::from_str`, isolated: starting
from `tm`, fold the modifier terms, initializing on the first and adding
(with `i32` wrap-around) on the rest. -/
def modAcc (tm : Option Int) (ms : List Int) : Option Int :=
  ms.foldl
    (fun acc m =>
      match acc with
      | some curr => some (wrap32 (curr + m))
      | none => some m)
    tm

/-- The trailing modifier text appended by `impl Display for Dice`:
`format!("+ {}", m)` when present, nothing otherwise. -/
def modSuffix : Option Int → List Char
  | some m => '+' :: ' ' :: intToChars m
  | none => []

/-- The ` + ` separator used by `impl Display for Dice`. -/
def sepPlus : List Char :=
  ' ' :: '+' :: [' ']

/-- The trimmed segments the modifier suffix of the rendering contributes
when the rendered text is split on `'+'` again. -/
def modSegs : Option Int → List (List Char)
  | some m => [intToChars m]
  | none => []

/-- Every character of the list fails `isWs`. -/
def wsFree (l : List Char) : Prop :=
  ∀ c ∈ l, isWs c = false

/-- The numeric bounds every parsed group satisfies: sides fit in `u16`,
counts fit in `usize`. -/
def boundedCounts (cs : List (Nat × Nat)) : Prop :=
  ∀ p ∈ cs, p.1 ≤ 65535 ∧ p.2 ≤ 2 ^ 64 - 1

/-- The `i32` range constraint on an optional modifier. -/
def modIn32 : Option Int → Prop
  | some m => -(2 ^ 31) ≤ m ∧ m < 2 ^ 31
  | none => True

instance {ε α : Type} [DecidableEq ε] [DecidableEq α] :
    DecidableEq (Except ε α) := fun a b =>
  match a, b with
  | .ok x, .ok y =>
    decidable_of_iff (x = y) ⟨fun h => by rw [h], fun h => by injection h⟩
  | .ok _, .error _ => isFalse (fun h => Except.noConfusion h)
  | .error _, .ok _ => isFalse (fun h => Except.noConfusion h)
  | .error x, .error y =>
    decidable_of_iff (x = y) ⟨fun h => by rw [h], fun h => by injection h⟩

/-! ### Basic character and digit lemmas -/

lemma digit_ne_d {c : Char} (h : isDigitChar c = true) : c ≠ 'd' := by
  rintro rfl
  exact absurd h (by decide)

lemma digit_ne_plus {c : Char} (h : isDigitChar c = true) : c ≠ '+' := by
  rintro rfl
  exact absurd h (by decide)

lemma digit_ne_minus {c : Char} (h : isDigitChar c = true) : c ≠ '-' := by
  rintro rfl
  exact absurd h (by decide)

lemma digit_not_ws {c : Char} (h : isDigitChar c = true) : isWs c = false := by
  rcases Bool.eq_false_or_eq_true (isWs c) with h' | h'
  · exfalso
    simp only [isWs, Bool.or_eq_true, decide_eq_true_eq] at h'
    rcases h' with ((rfl | rfl) | rfl) | rfl <;> exact absurd h (by decide)
  · exact h'

lemma digitChar_toNat {n : Nat} (h : n < 10) : (digitChar n).toNat = 48 + n := by
  interval_cases n <;> decide

lemma digitChar_digit {n : Nat} (h : n < 10) : isDigitChar (digitChar n) = true := by
  interval_cases n <;> decide

/-! ### Decimal rendering: round-trip with digit parsing -/

lemma natToCharsAux_congr :
    ∀ (n f₁ f₂ : Nat) (acc : List Char), n < f₁ → n < f₂ →
      natToCharsAux f₁ n acc = natToCharsAux f₂ n acc := by
  intro n
  induction n using Nat.strong_induction_on with
  | _ n ih =>
    intro f₁ f₂ acc h₁ h₂
    match f₁, f₂ with
    | k₁ + 1, k₂ + 1 =>
      by_cases h10 : n < 10
      · simp [natToCharsAux, h10]
      · simp only [natToCharsAux, h10, if_false]
        exact ih (n / 10) (by omega) k₁ k₂ _ (by omega) (by omega)

lemma natToCharsAux_acc :
    ∀ (n fuel : Nat) (acc : List Char), n < fuel →
      natToCharsAux fuel n acc = natToCharsAux fuel n [] ++ acc := by
  intro n
  induction n using Nat.strong_induction_on with
  | _ n ih =>
    intro fuel acc h
    match fuel with
    | k + 1 =>
      by_cases h10 : n < 10
      · simp [natToCharsAux, h10]
      · simp only [natToCharsAux, h10, if_false]
        rw [ih (n / 10) (by omega) k _ (by omega),
          ih (n / 10) (by omega) k [digitChar (n % 10)] (by omega)]
        simp

lemma natToChars_eq (n : Nat) :
    natToChars n =
      if n < 10 then [digitChar n]
      else natToChars (n / 10) ++ [digitChar (n % 10)] := by
  unfold natToChars
  by_cases h10 : n < 10
  · simp [natToCharsAux, h10]
  · simp only [h10, if_false]
    have step : natToCharsAux (n + 1) n [] =
        natToCharsAux n (n / 10) [digitChar (n % 10)] := by
      simp [natToCharsAux, h10]
    rw [step, natToCharsAux_acc (n / 10) n [digitChar (n % 10)] (by omega),
      natToCharsAux_congr (n / 10) n (n / 10 + 1) [] (by omega) (by omega)]

lemma natToChars_ne_nil (n : Nat) : natToChars n ≠ [] := by
  rw [natToChars_eq]
  by_cases h10 : n < 10 <;> simp [h10]

lemma natToChars_digits (n : Nat) : ∀ c ∈ natToChars n, isDigitChar c = true := by
  induction n using Nat.strong_induction_on with
  | _ n ih =>
    rw [natToChars_eq]
    by_cases h10 : n < 10
    · simp only [h10, if_true, List.mem_singleton]
      rintro c rfl
      exact digitChar_digit h10
    · simp only [h10, if_false, List.mem_append, List.mem_singleton]
      rintro c (hc | rfl)
      · exact ih (n / 10) (by omega) c hc
      · exact digitChar_digit (by omega)

lemma digitsToNat_snoc (a : List Char) (c : Char) :
    digitsToNat (a ++ [c]) = digitsToNat a * 10 + (c.toNat - 48) := by
  simp [digitsToNat, List.foldl_append]

lemma digitsVal_eq_some {l : List Char} {v : Nat} :
    digitsVal l = some v ↔
      l ≠ [] ∧ (∀ c ∈ l, isDigitChar c = true) ∧ digitsToNat l = v := by
  unfold digitsVal
  split
  case isTrue h =>
    simp only [Bool.and_eq_true, Bool.not_eq_true', List.isEmpty_eq_false,
      List.all_eq_true] at h
    simp only [Option.some_inj]
    constructor
    · rintro rfl
      exact ⟨h.1, h.2, rfl⟩
    · rintro ⟨-, -, rfl⟩
      rfl
  case isFalse h =>
    simp only [Bool.and_eq_true, Bool.not_eq_true', List.isEmpty_eq_false,
      List.all_eq_true, not_and_or] at h
    constructor
    · rintro ⟨⟩
    · rintro ⟨h1, h2, -⟩
      rcases h with h | h
      · exact absurd h1 (by simpa using h)
      · exact absurd h2 h

lemma digitsVal_natToChars (n : Nat) : digitsVal (natToChars n) = some n := by
  induction n using Nat.strong_induction_on with
  | _ n ih =>
    rw [natToChars_eq]
    by_cases h10 : n < 10
    · simp only [h10, if_true]
      rw [digitsVal_eq_some]
      refine ⟨by simp, ?_, ?_⟩
      · simp only [List.mem_singleton]
        rintro c rfl
        exact digitChar_digit h10
      · simp [digitsToNat, digitChar_toNat h10]
    · simp only [h10, if_false]
      rw [digitsVal_eq_some]
      have h' := (digitsVal_eq_some).1 (ih (n / 10) (by omega))
      refine ⟨by simp, ?_, ?_⟩
      · intro c hc
        rcases List.mem_append.1 hc with hc | hc
        · exact h'.2.1 c hc
        · rw [List.mem_singleton] at hc
          subst hc
          exact digitChar_digit (by omega)
      · rw [digitsToNat_snoc, h'.2.2, digitChar_toNat (by omega)]
        omega

/-! ### Splitting lemmas -/

lemma splitOnChar_ne_nil (sep : Char) (s : List Char) : splitOnChar sep s ≠ [] := by
  induction s with
  | nil => simp [splitOnChar]
  | cons c r ih =>
    by_cases h : c = sep
    · simp [splitOnChar, h]
    · simp only [splitOnChar, h, if_false]
      cases hr : splitOnChar sep r with
      | nil => simp
      | cons t ts => simp

lemma splitOnChar_cons_sep (sep : Char) (r : List Char) :
    splitOnChar sep (sep :: r) = [] :: splitOnChar sep r := by
  simp [splitOnChar]

lemma splitOnChar_cons_ne {sep c : Char} (h : ¬c = sep) {r t : List Char}
    {ts : List (List Char)} (hr : splitOnChar sep r = t :: ts) :
    splitOnChar sep (c :: r) = (c :: t) :: ts := by
  simp [splitOnChar, h, hr]

lemma splitOnChar_no_sep {sep : Char} :
    ∀ {l : List Char}, sep ∉ l → splitOnChar sep l = [l] := by
  intro l
  induction l with
  | nil => intro _; rfl
  | cons c r ih =>
    intro h
    have hc : ¬c = sep := fun hc => h (hc ▸ List.mem_cons_self c r)
    exact splitOnChar_cons_ne hc (ih (fun hm => h (List.mem_cons_of_mem c hm)))

lemma splitOnChar_append_no_sep {sep : Char} :
    ∀ {a b t : List Char} {ts : List (List Char)}, sep ∉ a →
      splitOnChar sep b = t :: ts → splitOnChar sep (a ++ b) = (a ++ t) :: ts := by
  intro a
  induction a with
  | nil => intro b t ts _ hb; simpa using hb
  | cons c a' ih =>
    intro b t ts ha hb
    have hc : ¬c = sep := fun hc => ha (hc ▸ List.mem_cons_self c a')
    have ha' : sep ∉ a' := fun hm => ha (List.mem_cons_of_mem c hm)
    simpa using splitOnChar_cons_ne hc (ih ha' hb)

lemma splitOnChar_group {sep : Char} {a rest : List Char} (ha : sep ∉ a) :
    splitOnChar sep (a ++ sep :: rest) = a :: splitOnChar sep rest := by
  have h := splitOnChar_append_no_sep ha (splitOnChar_cons_sep sep rest)
  simpa using h

lemma splitOnChar_length (sep : Char) :
    ∀ s : List Char, (splitOnChar sep s).length = s.count sep + 1 := by
  intro s
  induction s with
  | nil => simp [splitOnChar]
  | cons c r ih =>
    by_cases h : c = sep
    · subst h
      simp [splitOnChar_cons_sep, ih]
    · obtain ⟨t, ts, hr⟩ : ∃ t ts, splitOnChar sep r = t :: ts := by
        cases hr : splitOnChar sep r with
        | nil => exact absurd hr (splitOnChar_ne_nil sep r)
        | cons t ts => exact ⟨t, ts, rfl⟩
      rw [splitOnChar_cons_ne h hr]
      rw [hr] at ih
      simp only [List.length_cons] at ih ⊢
      rw [List.count_cons_of_ne (Ne.symm h)]
      omega

/-! ### Trimming lemmas -/

lemma dropWhile_all_append {p : Char → Bool} :
    ∀ {a : List Char} (b : List Char), (∀ c ∈ a, p c = true) →
      List.dropWhile p (a ++ b) = List.dropWhile p b := by
  intro a
  induction a with
  | nil => intro b _; rfl
  | cons c a' ih =>
    intro b h
    have hc : p c = true := h c (List.mem_cons_self c a')
    simp only [List.cons_append, List.dropWhile_cons, hc, if_true]
    exact ih b (fun x hx => h x (List.mem_cons_of_mem c hx))

lemma dropWhile_all_false {p : Char → Bool} {l : List Char}
    (h : ∀ c ∈ l, p c = false) : List.dropWhile p l = l := by
  cases l with
  | nil => rfl
  | cons c r =>
    simp [List.dropWhile_cons, h c (List.mem_cons_self c r)]

lemma trimChars_pad {pre x post : List Char}
    (hpre : ∀ c ∈ pre, isWs c = true) (hpost : ∀ c ∈ post, isWs c = true)
    (hx : wsFree x) (hne : x ≠ []) :
    trimChars (pre ++ (x ++ post)) = x := by
  unfold trimChars
  rw [dropWhile_all_append _ hpre]
  have h1 : List.dropWhile isWs (x ++ post) = x ++ post := by
    cases x with
    | nil => exact absurd rfl hne
    | cons c cs =>
      simp [List.dropWhile_cons, hx c (List.mem_cons_self c cs)]
  rw [h1, List.reverse_append,
    dropWhile_all_append _ (fun c hc => hpost c (List.mem_reverse.1 hc)),
    dropWhile_all_false (fun c hc => hx c (List.mem_reverse.1 hc)),
    List.reverse_reverse]

lemma trimChars_wsFree {x : List Char} (hx : wsFree x) : trimChars x = x := by
  rcases eq_or_ne x [] with rfl | hne
  · rfl
  · simpa using @trimChars_pad [] x [] (by simp) (by simp) hx hne

/-! ### Parsing/rendering round-trip lemmas for numbers -/

lemma parseUB_natToChars {bound n : Nat} (h : n ≤ bound) :
    parseUnsignedBounded bound (natToChars n) = some n := by
  obtain ⟨c, cs, hcons⟩ := List.exists_cons_of_ne_nil (natToChars_ne_nil n)
  have hc : isDigitChar c = true :=
    natToChars_digits n c (by rw [hcons]; exact List.mem_cons_self c cs)
  have hplus : ¬(natToChars n).head? = some '+' := by
    rw [hcons]
    simp only [List.head?_cons, Option.some_inj]
    exact digit_ne_plus hc
  unfold parseUnsignedBounded
  simp only [hplus, if_false, digitsVal_natToChars, h, if_true]

lemma parseUB_some_facts {bound : Nat} {s : List Char} {v : Nat}
    (h : parseUnsignedBounded bound s = some v) :
    v ≤ bound ∧ s ≠ [] ∧ (∀ c ∈ s, isDigitChar c = true ∨ c = '+') := by
  unfold parseUnsignedBounded at h
  by_cases hplus : s.head? = some '+'
  · simp only [hplus, if_true] at h
    obtain ⟨c, t, rfl⟩ := List.exists_cons_of_ne_nil
      (by rintro rfl; simp at hplus : s ≠ [])
    simp only [List.head?_cons, Option.some_inj] at hplus
    subst hplus
    simp only [List.tail_cons] at h
    cases hdv : digitsVal t with
    | none => rw [hdv] at h; exact absurd h (by simp)
    | some w =>
      rw [hdv] at h
      have hw := digitsVal_eq_some.1 hdv
      by_cases hb : w ≤ bound
      · simp only [hb, if_true, Option.some_inj] at h
        subst h
        refine ⟨hb, by simp, ?_⟩
        intro c hc
        rcases List.mem_cons.1 hc with rfl | hc
        · exact Or.inr rfl
        · exact Or.inl (hw.2.1 c hc)
      · simp [hb] at h
  · simp only [hplus, if_false] at h
    cases hdv : digitsVal s with
    | none => rw [hdv] at h; exact absurd h (by simp)
    | some w =>
      rw [hdv] at h
      have hw := digitsVal_eq_some.1 hdv
      by_cases hb : w ≤ bound
      · simp only [hb, if_true, Option.some_inj] at h
        subst h
        exact ⟨hb, hw.1, fun c hc => Or.inl (hw.2.1 c hc)⟩
      · simp [hb] at h

lemma parseUB_wsFree {bound : Nat} {s : List Char} {v : Nat}
    (h : parseUnsignedBounded bound s = some v) : wsFree s := by
  intro c hc
  rcases (parseUB_some_facts h).2.2 c hc with hd | rfl
  · exact digit_not_ws hd
  · decide

lemma parseUB_no_d {bound : Nat} {s : List Char} {v : Nat}
    (h : parseUnsignedBounded bound s = some v) : 'd' ∉ s := by
  intro hmem
  rcases (parseUB_some_facts h).2.2 'd' hmem with hd | hd
  · exact absurd hd (by decide)
  · exact absurd hd (by decide)

lemma parseI32_intToChars {m : Int} (h1 : -(2 ^ 31) ≤ m) (h2 : m < 2 ^ 31) :
    parseI32 (intToChars m) = some m := by
  by_cases hneg : m < 0
  · have : intToChars m = '-' :: natToChars m.natAbs := by
      simp [intToChars, hneg]
    rw [this]
    unfold parseI32
    simp only [List.head?_cons, Option.some_inj, if_true, List.tail_cons,
      digitsVal_natToChars]
    have hb : m.natAbs ≤ 2 ^ 31 := by omega
    simp only [hb, if_true, Option.some_inj]
    omega
  · have : intToChars m = natToChars m.toNat := by
      simp [intToChars, hneg]
    rw [this]
    obtain ⟨c, cs, hcons⟩ := List.exists_cons_of_ne_nil (natToChars_ne_nil m.toNat)
    have hc : isDigitChar c = true :=
      natToChars_digits _ c (by rw [hcons]; exact List.mem_cons_self c cs)
    unfold parseI32
    have hm : ¬(natToChars m.toNat).head? = some '-' := by
      rw [hcons]
      simp only [List.head?_cons, Option.some_inj]
      exact digit_ne_minus hc
    have hp : ¬(natToChars m.toNat).head? = some '+' := by
      rw [hcons]
      simp only [List.head?_cons, Option.some_inj]
      exact digit_ne_plus hc
    simp only [hm, hp, if_false, digitsVal_natToChars]
    have hb : m.toNat ≤ 2 ^ 31 - 1 := by omega
    simp only [hb, if_true, Option.some_inj]
    omega

lemma parseI32_range {s : List Char} {m : Int} (h : parseI32 s = some m) :
    -(2 ^ 31) ≤ m ∧ m < 2 ^ 31 := by
  unfold parseI32 at h
  by_cases hm : s.head? = some '-'
  · simp only [hm, if_true] at h
    cases hdv : digitsVal s.tail with
    | none => rw [hdv] at h; exact absurd h (by simp)
    | some w =>
      rw [hdv] at h
      simp at h
      omega
  · simp only [hm, if_false] at h
    by_cases hp : s.head? = some '+'
    · simp only [hp, if_true] at h
      cases hdv : digitsVal s.tail with
      | none => rw [hdv] at h; exact absurd h (by simp)
      | some w =>
        rw [hdv] at h
        simp at h
        omega
    · simp only [hp, if_false] at h
      cases hdv : digitsVal s with
      | none => rw [hdv] at h; exact absurd h (by simp)
      | some w =>
        rw [hdv] at h
        simp at h
        omega

/-! ### Character classes of rendered text -/

lemma natToChars_no_d (n : Nat) : 'd' ∉ natToChars n := fun h =>
  absurd (natToChars_digits n 'd' h) (by decide)

lemma natToChars_no_plus (n : Nat) : '+' ∉ natToChars n := fun h =>
  absurd (natToChars_digits n '+' h) (by decide)

lemma natToChars_wsFree (n : Nat) : wsFree (natToChars n) := fun c hc =>
  digit_not_ws (natToChars_digits n c hc)

lemma intToChars_no_d (m : Int) : 'd' ∉ intToChars m := by
  unfold intToChars
  split
  · rw [List.mem_cons]
    rintro (h | h)
    · exact absurd h (by decide)
    · exact natToChars_no_d _ h
  · exact natToChars_no_d _

lemma intToChars_no_plus (m : Int) : '+' ∉ intToChars m := by
  unfold intToChars
  split
  · rw [List.mem_cons]
    rintro (h | h)
    · exact absurd h (by decide)
    · exact natToChars_no_plus _ h
  · exact natToChars_no_plus _

lemma intToChars_wsFree (m : Int) : wsFree (intToChars m) := by
  unfold intToChars
  split
  · intro c hc
    rcases List.mem_cons.1 hc with rfl | hc
    · decide
    · exact natToChars_wsFree _ c hc
  · exact natToChars_wsFree _

lemma intToChars_ne_nil (m : Int) : intToChars m ≠ [] := by
  unfold intToChars
  split
  · simp
  · exact natToChars_ne_nil _

lemma renderGroup_no_plus (p : Nat × Nat) : '+' ∉ renderGroup p := by
  unfold renderGroup
  rw [List.mem_append, List.mem_cons]
  rintro (h | h | h)
  · exact natToChars_no_plus _ h
  · exact absurd h (by decide)
  · exact natToChars_no_plus _ h

lemma renderGroup_wsFree (p : Nat × Nat) : wsFree (renderGroup p) := by
  intro c hc
  unfold renderGroup at hc
  rw [List.mem_append, List.mem_cons] at hc
  rcases hc with h | h | h
  · exact digit_not_ws (natToChars_digits _ c h)
  · subst h; decide
  · exact digit_not_ws (natToChars_digits _ c h)

lemma renderGroup_ne_nil (p : Nat × Nat) : renderGroup p ≠ [] := by
  unfold renderGroup
  intro h
  exact natToChars_ne_nil p.2 (List.append_eq_nil.1 h).1

/-! ### Round-trip lemmas for segment parsing -/

lemma die_fromStr_d_tail {tail : List Char} {sd : Nat}
    (h : parseU16 tail = some sd) : Die.fromStr ('d' :: tail) = .ok ⟨sd⟩ := by
  have hws : wsFree ('d' :: tail) := by
    intro c hc
    rcases List.mem_cons.1 hc with rfl | hc
    · decide
    · exact parseUB_wsFree h c hc
  have hdrop : List.dropWhile (· = 'd') tail = tail := by
    apply dropWhile_all_false
    intro c hc
    have := parseUB_no_d h
    simp only [decide_eq_false_iff_not]
    rintro rfl
    exact this hc
  unfold Die.fromStr
  simp only [trimChars_wsFree hws, List.head?_cons, if_true, List.dropWhile_cons,
    decide_eq_true_eq, if_pos rfl, hdrop, h]

lemma specPart_die_count {cnt tail : List Char} {c sd : Nat}
    (hcnt : parseUsize cnt = some c) (htail : parseU16 tail = some sd) :
    DiceSpecPart.fromStr (cnt ++ 'd' :: tail) = .ok (.die ⟨sd⟩ c) := by
  have hnd_cnt : 'd' ∉ cnt := parseUB_no_d hcnt
  have hnd_tail : 'd' ∉ tail := parseUB_no_d htail
  have hcontains : (cnt ++ 'd' :: tail).contains 'd' = true := by
    rw [List.elem_iff]
    exact List.mem_append.2 (Or.inr (List.mem_cons_self _ _))
  have hsplit : splitOnChar 'd' (cnt ++ 'd' :: tail) = [cnt, tail] := by
    rw [splitOnChar_group hnd_cnt, splitOnChar_no_sep hnd_tail]
  have hne : ¬cnt.isEmpty = true := by
    rw [List.isEmpty_iff]
    exact (parseUB_some_facts hcnt).2.1
  unfold DiceSpecPart.fromStr
  simp only [hcontains, if_true, hsplit, hne, if_false, hcnt,
    die_fromStr_d_tail htail]
  simp

lemma specPart_die_nocount {tail : List Char} {sd : Nat}
    (htail : parseU16 tail = some sd) :
    DiceSpecPart.fromStr ('d' :: tail) = .ok (.die ⟨sd⟩ 1) := by
  have hnd_tail : 'd' ∉ tail := parseUB_no_d htail
  have hcontains : ('d' :: tail).contains 'd' = true := by
    rw [List.elem_iff]
    exact List.mem_cons_self _ _
  have hsplit : splitOnChar 'd' ('d' :: tail) = [[], tail] := by
    rw [splitOnChar_cons_sep, splitOnChar_no_sep hnd_tail]
  unfold DiceSpecPart.fromStr
  simp only [hcontains, if_true, hsplit, List.isEmpty_nil, if_true,
    die_fromStr_d_tail htail]

lemma specPart_mod {s : List Char} {m : Int} (hd : 'd' ∉ s)
    (hm : parseI32 s = some m) :
    DiceSpecPart.fromStr s = .ok (.modifier m) := by
  have hcontains : ¬s.contains 'd' = true := by
    rw [List.elem_iff]
    exact hd
  unfold DiceSpecPart.fromStr
  simp only [Bool.not_eq_true] at hcontains
  simp only [hcontains, Bool.false_eq_true, if_false, hm]

lemma specPart_renderGroup {sd c : Nat} (hsd : sd ≤ 65535)
    (hc : c ≤ 2 ^ 64 - 1) :
    DiceSpecPart.fromStr (renderGroup (sd, c)) = .ok (.die ⟨sd⟩ c) :=
  specPart_die_count (parseUB_natToChars hc) (parseUB_natToChars hsd)

lemma specPart_intToChars {m : Int} (h1 : -(2 ^ 31) ≤ m) (h2 : m < 2 ^ 31) :
    DiceSpecPart.fromStr (intToChars m) = .ok (.modifier m) :=
  specPart_mod (intToChars_no_d m) (parseI32_intToChars h1 h2)

/-! ### Inversion lemmas: every successful segment parse is bounded -/

lemma die_fromStr_ok_bound {s : List Char} {d : Die}
    (h : Die.fromStr s = .ok d) : d.sides ≤ 65535 := by
  unfold Die.fromStr at h
  split at h
  · cases hp : parseU16 ((trimChars s).dropWhile (· = 'd')) with
    | none => rw [hp] at h; exact absurd h (by simp)
    | some n =>
      rw [hp] at h
      simp only [Except.ok.injEq] at h
      subst h
      exact (parseUB_some_facts hp).1
  · exact absurd h (by simp)

lemma specPart_ok_cases {p : List Char} {r : DiceSpecPart}
    (h : DiceSpecPart.fromStr p = .ok r) :
    (∃ d c, r = .die d c ∧ d.sides ≤ 65535 ∧ c ≤ 2 ^ 64 - 1) ∨
    (∃ m, r = .modifier m ∧ -(2 ^ 31) ≤ m ∧ m < 2 ^ 31) := by
  unfold DiceSpecPart.fromStr at h
  split at h
  · split at h
    · rename_i x0 p0 p1 heq
      by_cases hemp : p0.isEmpty
      · rw [if_pos hemp] at h
        cases hdie : Die.fromStr ('d' :: p1) with
        | ok dd =>
          rw [hdie] at h
          simp only [Except.ok.injEq] at h
          subst h
          exact Or.inl ⟨dd, 1, rfl, die_fromStr_ok_bound hdie, by norm_num⟩
        | error e => rw [hdie] at h; exact absurd h (by simp)
      · rw [if_neg hemp] at h
        cases hcnt : parseUsize p0 with
        | none => rw [hcnt] at h; exact absurd h (by simp)
        | some c' =>
          rw [hcnt] at h
          cases hdie : Die.fromStr ('d' :: p1) with
          | ok dd =>
            rw [hdie] at h
            simp only [Except.ok.injEq] at h
            subst h
            exact Or.inl ⟨dd, c', rfl, die_fromStr_ok_bound hdie,
              (parseUB_some_facts hcnt).1⟩
          | error e => rw [hdie] at h; exact absurd h (by simp)
    · exact absurd h (by simp)
  · cases hp32 : parseI32 p with
    | none => rw [hp32] at h; exact absurd h (by simp)
    | some m =>
      rw [hp32] at h
      simp only [Except.ok.injEq] at h
      subst h
      exact Or.inr ⟨m, rfl, (parseI32_range hp32).1, (parseI32_range hp32).2⟩

lemma specPart_ok_die_inv {p : List Char} {d : Die} {c : Nat}
    (h : DiceSpecPart.fromStr p = .ok (.die d c)) :
    d.sides ≤ 65535 ∧ c ≤ 2 ^ 64 - 1 := by
  rcases specPart_ok_cases h with ⟨d', c', heq, h1, h2⟩ | ⟨m, heq, -⟩
  · cases heq
    exact ⟨h1, h2⟩
  · exact absurd heq (by simp)

lemma specPart_ok_mod_inv {p : List Char} {m : Int}
    (h : DiceSpecPart.fromStr p = .ok (.modifier m)) :
    -(2 ^ 31) ≤ m ∧ m < 2 ^ 31 := by
  rcases specPart_ok_cases h with ⟨d', c', heq, -⟩ | ⟨m', heq, h1, h2⟩
  · exact absurd heq (by simp)
  · cases heq
    exact ⟨h1, h2⟩

/-! ### 32-bit wrap-around arithmetic -/

lemma wrap32_range (z : Int) : -(2 ^ 31) ≤ wrap32 z ∧ wrap32 z < 2 ^ 31 := by
  unfold wrap32
  omega

lemma wrap32_eq_self {z : Int} (h1 : -(2 ^ 31) ≤ z) (h2 : z < 2 ^ 31) :
    wrap32 z = z := by
  unfold wrap32
  omega

lemma wrap32_add_left (a b : Int) : wrap32 (wrap32 a + b) = wrap32 (a + b) := by
  unfold wrap32
  omega

/-! ### The modifier accumulator -/

lemma modAcc_some (ms : List Int) :
    ∀ c : Int, -(2 ^ 31) ≤ c → c < 2 ^ 31 →
      modAcc (some c) ms = some (wrap32 (c + ms.sum)) := by
  induction ms with
  | nil =>
    intro c h1 h2
    simp [modAcc, wrap32_eq_self h1 h2]
  | cons m ms ih =>
    intro c h1 h2
    have step : modAcc (some c) (m :: ms) = modAcc (some (wrap32 (c + m))) ms := by
      simp [modAcc]
    rw [step, ih (wrap32 (c + m)) (wrap32_range _).1 (wrap32_range _).2,
      wrap32_add_left]
    rw [List.sum_cons]
    ring_nf

lemma modAcc_none_cons (m : Int) (ms : List Int) :
    modAcc none (m :: ms) = modAcc (some m) ms := by
  simp [modAcc]

lemma modAcc_none_char (ms : List Int)
    (hr : ∀ m ∈ ms, -(2 ^ 31) ≤ m ∧ m < 2 ^ 31) :
    (modAcc none ms = none ↔ ms = []) ∧
      (ms ≠ [] → modAcc none ms = some (wrap32 ms.sum)) := by
  cases ms with
  | nil => simp [modAcc]
  | cons m ms' =>
    have hm := hr m (List.mem_cons_self m ms')
    have hval : modAcc none (m :: ms') = some (wrap32 (m + ms'.sum)) := by
      rw [modAcc_none_cons, modAcc_some ms' m hm.1 hm.2]
    constructor
    · rw [hval]; simp
    · intro _
      rw [hval, List.sum_cons]

/-! ### The parsing fold -/

lemma diceFromStrAux_cons_die {p : List Char} {d : Die} {c : Nat}
    {rest : List (List Char)} {acc : List (Nat × Nat)} {tm : Option Int}
    (hp : DiceSpecPart.fromStr p = .ok (.die d c)) :
    diceFromStrAux (p :: rest) acc tm =
      diceFromStrAux rest (acc ++ [(d.sides, c)]) tm := by
  conv_lhs => unfold diceFromStrAux
  rw [hp]

lemma diceFromStrAux_cons_mod {p : List Char} {m : Int}
    {rest : List (List Char)} {acc : List (Nat × Nat)} {tm : Option Int}
    (hp : DiceSpecPart.fromStr p = .ok (.modifier m)) :
    diceFromStrAux (p :: rest) acc tm =
      diceFromStrAux rest acc
        (match tm with
         | some curr => some (wrap32 (curr + m))
         | none => some m) := by
  conv_lhs => unfold diceFromStrAux
  rw [hp]
  cases tm <;> rfl

lemma diceFromStrAux_ok_inv :
    ∀ (parts : List (List Char)) (acc : List (Nat × Nat)) (tm : Option Int)
      (e : Dice), diceFromStrAux parts acc tm = .ok e →
      e.counts = acc ++ parts.filterMap dieProj ∧
      e.modifier = modAcc tm (parts.filterMap modProj) := by
  intro parts
  induction parts with
  | nil =>
    intro acc tm e h
    simp only [diceFromStrAux, Except.ok.injEq] at h
    subst h
    simp [modAcc]
  | cons p rest ih =>
    intro acc tm e h
    unfold diceFromStrAux at h
    cases hp : DiceSpecPart.fromStr p with
    | error err => rw [hp] at h; exact absurd h (by simp)
    | ok r =>
      rw [hp] at h
      cases r with
      | die d c =>
        obtain ⟨h1, h2⟩ := ih _ _ _ h
        constructor
        · rw [h1, List.filterMap_cons]
          simp [dieProj, hp]
        · rw [h2, List.filterMap_cons]
          simp [modProj, hp]
      | modifier m =>
        have hdie : dieProj p = none := by simp [dieProj, hp]
        have hmod : modProj p = some m := by simp [modProj, hp]
        cases tm with
        | some curr =>
          obtain ⟨h1, h2⟩ := ih _ _ _ h
          constructor
          · rw [h1, List.filterMap_cons, hdie]
          · rw [h2, List.filterMap_cons, hmod]
            simp [modAcc]
        | none =>
          obtain ⟨h1, h2⟩ := ih _ _ _ h
          constructor
          · rw [h1, List.filterMap_cons, hdie]
          · rw [h2, List.filterMap_cons, hmod, modAcc_none_cons]

lemma diceFromStrAux_ok_bounds :
    ∀ (parts : List (List Char)) (acc : List (Nat × Nat)) (tm : Option Int)
      (e : Dice), diceFromStrAux parts acc tm = .ok e →
      boundedCounts acc → modIn32 tm →
      boundedCounts e.counts ∧ modIn32 e.modifier := by
  intro parts
  induction parts with
  | nil =>
    intro acc tm e h hacc htm
    simp only [diceFromStrAux, Except.ok.injEq] at h
    subst h
    exact ⟨hacc, htm⟩
  | cons p rest ih =>
    intro acc tm e h hacc htm
    unfold diceFromStrAux at h
    cases hp : DiceSpecPart.fromStr p with
    | error err => rw [hp] at h; exact absurd h (by simp)
    | ok r =>
      rw [hp] at h
      cases r with
      | die d c =>
        refine ih _ _ _ h ?_ htm
        intro q hq
        rcases List.mem_append.1 hq with hq | hq
        · exact hacc q hq
        · rw [List.mem_singleton] at hq
          subst hq
          exact specPart_ok_die_inv hp
      | modifier m =>
        have hm := specPart_ok_mod_inv hp
        cases tm with
        | some curr => exact ih _ _ _ h hacc (wrap32_range _)
        | none => exact ih _ _ _ h hacc hm

lemma diceFromStrAux_error_of_mem :
    ∀ (parts : List (List Char)) (acc : List (Nat × Nat)) (tm : Option Int)
      (p : List Char), p ∈ parts → exceptIsOk (DiceSpecPart.fromStr p) = false →
      exceptIsOk (diceFromStrAux parts acc tm) = false := by
  intro parts
  induction parts with
  | nil => intro acc tm p hp; exact absurd hp (List.not_mem_nil p)
  | cons q rest ih =>
    intro acc tm p hp herr
    unfold diceFromStrAux
    cases hq : DiceSpecPart.fromStr q with
    | error e => simp [exceptIsOk]
    | ok r =>
      have hpr : p ∈ rest := by
        rcases List.mem_cons.1 hp with rfl | hpr
        · rw [hq] at herr; exact absurd herr (by simp [exceptIsOk])
        · exact hpr
      cases r with
      | die d c => exact ih _ _ _ hpr herr
      | modifier m =>
        cases tm with
        | some curr => exact ih _ _ _ hpr herr
        | none => exact ih _ _ _ hpr herr

lemma diceFromStrAux_renders :
    ∀ (cs : List (Nat × Nat)) (rest : List (List Char))
      (acc : List (Nat × Nat)) (tm : Option Int), boundedCounts cs →
      diceFromStrAux (cs.map renderGroup ++ rest) acc tm =
        diceFromStrAux rest (acc ++ cs) tm := by
  intro cs
  induction cs with
  | nil => intro rest acc tm _; simp
  | cons p cs' ih =>
    intro rest acc tm hb
    have hp := hb p (List.mem_cons_self p cs')
    have hrender : DiceSpecPart.fromStr (renderGroup p) = .ok (.die ⟨p.1⟩ p.2) := by
      have := specPart_renderGroup hp.1 hp.2
      simpa using this
    simp only [List.map_cons, List.cons_append]
    rw [diceFromStrAux_cons_die hrender,
      ih rest (acc ++ [(p.1, p.2)]) tm
        (fun q hq => hb q (List.mem_cons_of_mem p hq))]
    simp

/-! ### Splitting the canonical rendering back into segments -/

lemma dice_toChars_eq (d : Dice) :
    Dice.toChars d =
      joinSep sepPlus (d.counts.map renderGroup) ++ modSuffix d.modifier := by
  cases hm : d.modifier <;> simp [Dice.toChars, modSuffix, sepPlus, hm]

lemma modSuffix_no_plus_tail (mo : Option Int) :
    ∀ c ∈ modSegs mo, '+' ∉ c := by
  cases mo with
  | none => simp [modSegs]
  | some m =>
    simp only [modSegs, List.mem_singleton]
    rintro c rfl
    exact intToChars_no_plus m

lemma trim_space_pad {x : List Char} (hx : wsFree x) (hne : x ≠ []) :
    trimChars (' ' :: x) = x := by
  have h := @trimChars_pad [' '] x []
    (by intro c hc; rw [List.mem_singleton] at hc; subst hc; decide)
    (by intro c hc; exact absurd hc (List.not_mem_nil c)) hx hne
  simpa using h

lemma trim_pre_pad {pre x : List Char} (hpre : ∀ c ∈ pre, isWs c = true)
    (hx : wsFree x) (hne : x ≠ []) : trimChars (pre ++ x) = x := by
  have h := @trimChars_pad pre x [] hpre
    (by intro c hc; exact absurd hc (List.not_mem_nil c)) hx hne
  simpa using h

lemma trim_pre_post_pad {pre x : List Char} (hpre : ∀ c ∈ pre, isWs c = true)
    (hx : wsFree x) (hne : x ≠ []) : trimChars (pre ++ x ++ [' ']) = x := by
  have h := @trimChars_pad pre x [' '] hpre
    (by intro c hc; rw [List.mem_singleton] at hc; subst hc; decide) hx hne
  rw [List.append_assoc]
  exact h

lemma segs_render (cs : List (Nat × Nat)) (mo : Option Int) :
    ∀ pre : List Char, cs ≠ [] → (∀ c ∈ pre, isWs c = true) → '+' ∉ pre →
      (splitOnChar '+'
          (pre ++ (joinSep sepPlus (cs.map renderGroup) ++ modSuffix mo))).map
          trimChars
        = cs.map renderGroup ++ modSegs mo := by
  induction cs with
  | nil => intro pre hne _ _; exact absurd rfl hne
  | cons p cs' ih =>
    intro pre _ hpre hplus
    have hnp_head : '+' ∉ pre ++ renderGroup p := by
      rw [List.mem_append]
      rintro (h | h)
      · exact hplus h
      · exact renderGroup_no_plus p h
    cases cs' with
    | nil =>
      cases mo with
      | none =>
        simp only [List.map_cons, List.map_nil, joinSep, modSuffix, modSegs,
          List.append_nil]
        rw [splitOnChar_no_sep hnp_head]
        simp only [List.map_cons, List.map_nil]
        rw [trim_pre_pad hpre (renderGroup_wsFree p) (renderGroup_ne_nil p)]
      | some m =>
        simp only [List.map_cons, List.map_nil, modSegs]
        have hshape : pre ++ (joinSep sepPlus [renderGroup p] ++ modSuffix (some m)) =
            (pre ++ renderGroup p) ++ '+' :: (' ' :: intToChars m) := by
          simp [joinSep, modSuffix, List.append_assoc]
        rw [hshape, splitOnChar_group hnp_head,
          splitOnChar_no_sep (by
            rw [List.mem_cons]
            rintro (h | h)
            · exact absurd h.symm (by decide)
            · exact intToChars_no_plus m h)]
        simp only [List.map_cons, List.map_nil]
        rw [trim_pre_pad hpre (renderGroup_wsFree p) (renderGroup_ne_nil p),
          trim_space_pad (intToChars_wsFree m) (intToChars_ne_nil m)]
        rfl
    | cons q cs'' =>
      have hnp_head' : '+' ∉ pre ++ renderGroup p ++ [' '] := by
        rw [List.append_assoc, List.mem_append]
        rintro (h | h)
        · exact hplus h
        · rw [List.mem_append] at h
          rcases h with h | h
          · exact renderGroup_no_plus p h
          · rw [List.mem_singleton] at h
            exact absurd h (by decide)
      have hshape : pre ++
            (joinSep sepPlus ((p :: q :: cs'').map renderGroup) ++ modSuffix mo) =
          (pre ++ renderGroup p ++ [' ']) ++
            '+' :: ([' '] ++
              (joinSep sepPlus ((q :: cs'').map renderGroup) ++ modSuffix mo)) := by
        simp only [List.map_cons, joinSep, sepPlus]
        simp [List.append_assoc]
      rw [hshape, splitOnChar_group hnp_head']
      have IH := ih [' '] (by simp)
        (by intro c hc; rw [List.mem_singleton] at hc; subst hc; decide)
        (by rw [List.mem_singleton]; decide)
      simp only [List.map_cons] at IH ⊢
      rw [IH,
        trim_pre_post_pad hpre (renderGroup_wsFree p) (renderGroup_ne_nil p)]
      rfl

lemma segsOf_toChars {cs : List (Nat × Nat)} {mo : Option Int} (hne : cs ≠ []) :
    segsOf (Dice.toChars ⟨cs, mo⟩) = cs.map renderGroup ++ modSegs mo := by
  unfold segsOf
  rw [dice_toChars_eq]
  simpa using segs_render cs mo [] hne (by simp) (by simp)

/-! ### The round trip for rendered expressions -/

lemma fromStr_toChars {cs : List (Nat × Nat)} {mo : Option Int}
    (hb : boundedCounts cs) (hmo : modIn32 mo) (hne : cs ≠ []) :
    Dice.fromStr (Dice.toChars ⟨cs, mo⟩) = .ok ⟨cs, mo⟩ := by
  have hsegs : segsOf (Dice.toChars ⟨cs, mo⟩) = cs.map renderGroup ++ modSegs mo :=
    segsOf_toChars hne
  unfold Dice.fromStr
  rw [show (splitOnChar '+' (Dice.toChars ⟨cs, mo⟩)).map trimChars =
      segsOf (Dice.toChars ⟨cs, mo⟩) from rfl, hsegs,
    diceFromStrAux_renders cs (modSegs mo) [] none hb]
  cases mo with
  | none => rfl
  | some m =>
    have hm : DiceSpecPart.fromStr (intToChars m) = .ok (.modifier m) :=
      specPart_intToChars hmo.1 hmo.2
    rw [show modSegs (some m) = [intToChars m] from rfl,
      diceFromStrAux_cons_mod hm]
    rfl

lemma fromStr_ok_inv {s : List Char} {e : Dice} (h : Dice.fromStr s = .ok e) :
    e.counts = dieTermsOf s ∧ e.modifier = modAcc none (modTermsOf s) ∧
      boundedCounts e.counts ∧ modIn32 e.modifier := by
  unfold Dice.fromStr at h
  have h1 := diceFromStrAux_ok_inv _ _ _ _ h
  have h2 := diceFromStrAux_ok_bounds _ _ _ _ h (by intro q hq; simp at hq)
    trivial
  refine ⟨?_, ?_, h2.1, h2.2⟩
  · rw [h1.1]
    simp [dieTermsOf, segsOf]
  · rw [h1.2]
    simp [modTermsOf, segsOf]

/-! ### Helpers for the single-die expression (claim C5) -/

lemma fromStr_single_die {sd : Nat} (hb : sd ≤ 65535) :
    Dice.fromStr ('d' :: natToChars sd) = .ok ⟨[(sd, 1)], none⟩ := by
  have hnp : '+' ∉ 'd' :: natToChars sd := by
    rw [List.mem_cons]
    rintro (h | h)
    · exact absurd h (by decide)
    · exact natToChars_no_plus sd h
  have hws : wsFree ('d' :: natToChars sd) := by
    intro c hc
    rcases List.mem_cons.1 hc with rfl | hc
    · decide
    · exact natToChars_wsFree sd c hc
  unfold Dice.fromStr
  rw [splitOnChar_no_sep hnp]
  simp only [List.map_cons, List.map_nil, trimChars_wsFree hws]
  rw [diceFromStrAux_cons_die (specPart_die_nocount (parseUB_natToChars hb))]
  rfl

lemma roll_single (sd : Nat) (g : Nat → Nat) :
    ((Dice.mk [(sd, 1)] none).roll g).total = (g 0 : Int) := by
  simp [Dice.roll, rollsOf, RollResult.total, List.range_succ]

/-! ### Helpers for the modifier accumulation (claim C6) -/

lemma modTermsOf_range {s : List Char} :
    ∀ m ∈ modTermsOf s, -(2 ^ 31) ≤ m ∧ m < 2 ^ 31 := by
  intro m hm
  unfold modTermsOf at hm
  obtain ⟨p, -, hp⟩ := List.mem_filterMap.1 hm
  unfold modProj at hp
  cases hf : DiceSpecPart.fromStr p with
  | error e =>
    rw [hf] at hp
    exact absurd hp (by simp)
  | ok r =>
    rw [hf] at hp
    cases r with
    | die d c => exact absurd hp (by simp)
    | modifier m' =>
      change some m' = some m at hp
      rw [Option.some_inj] at hp
      subst hp
      exact specPart_ok_mod_inv hf

/-! ### Helpers for evaluation (claim C8) -/

lemma specPart_nil_error :
    DiceSpecPart.fromStr ([] : List Char) = .error (.Unparseable []) := rfl

lemma fromStr_error_of_empty_seg {s : List Char}
    (h : ∃ p ∈ splitOnChar '+' s, trimChars p = []) :
    exceptIsOk (Dice.fromStr s) = false := by
  obtain ⟨p, hp, htrim⟩ := h
  unfold Dice.fromStr
  apply diceFromStrAux_error_of_mem _ _ _ (trimChars p)
  · exact List.mem_map_of_mem trimChars hp
  · rw [htrim]
    rfl

/-! ### Helpers for the sorted constructor (claim C9) -/

instance : IsTotal (Nat × Nat) newLe :=
  ⟨fun a b => Int.le_total (-(a.1 : Int)) (-(b.1 : Int))⟩

instance : IsTrans (Nat × Nat) newLe :=
  ⟨fun _ _ _ hab hbc => le_trans hab hbc⟩

lemma filter_orderedInsert (x : Nat × Nat) (v : Nat) :
    ∀ l : List (Nat × Nat),
      (List.orderedInsert newLe x l).filter (fun p => decide (p.1 = v)) =
        if x.1 = v then x :: l.filter (fun p => decide (p.1 = v))
        else l.filter (fun p => decide (p.1 = v)) := by
  intro l
  induction l with
  | nil =>
    by_cases hx : x.1 = v <;>
      simp [List.orderedInsert, List.filter_cons, hx]
  | cons y l' ih =>
    rw [List.orderedInsert]
    by_cases hr : newLe x y
    · rw [if_pos hr]
      by_cases hx : x.1 = v <;> simp [List.filter_cons, hx]
    · rw [if_neg hr]
      have hlt : x.1 < y.1 := by
        unfold newLe at hr
        push_neg at hr
        exact_mod_cast (by omega : (x.1 : Int) < y.1)
      rw [List.filter_cons, ih]
      by_cases hx : x.1 = v
      · have hy : ¬y.1 = v := by omega
        simp [hx, hy, List.filter_cons]
      · by_cases hy : y.1 = v <;> simp [hx, hy, List.filter_cons]

lemma filter_insertionSort (v : Nat) :
    ∀ l : List (Nat × Nat),
      (List.insertionSort newLe l).filter (fun p => decide (p.1 = v)) =
        l.filter (fun p => decide (p.1 = v)) := by
  intro l
  induction l with
  | nil => rfl
  | cons x l' ih =>
    rw [List.insertionSort, filter_orderedInsert x v _, List.filter_cons]
    by_cases hx : x.1 = v <;> simp [hx, ih]

lemma sorted_new (counts : List (Nat × Nat)) :
    List.Sorted (fun a b : Nat × Nat => b.1 ≤ a.1)
      (List.insertionSort newLe counts) := by
  have h := List.sorted_insertionSort newLe counts
  refine h.imp ?_
  intro a b hab
  unfold newLe at hab
  omega

/-! ### Helpers for the Die parser characterization (claim C3) -/

lemma dropWhile_head_not {p : Char → Bool} :
    ∀ {l : List Char} {c : Char}, (l.dropWhile p).head? = some c →
      p c = false := by
  intro l
  induction l with
  | nil => intro c h; simp [List.dropWhile] at h
  | cons x l' ih =>
    intro c h
    rw [List.dropWhile_cons] at h
    by_cases hx : p x = true
    · rw [if_pos hx] at h
      exact ih h
    · rw [if_neg hx] at h
      rw [List.head?_cons, Option.some_inj] at h
      subst h
      exact Bool.eq_false_iff.2 hx

lemma die_fromStr_ok_iff {s : List Char} {n : Nat} :
    Die.fromStr s = .ok ⟨n⟩ ↔
      ∃ k tail, trimChars s = 'd' :: (List.replicate k 'd' ++ tail) ∧
        tail.head? ≠ some 'd' ∧ parseU16 tail = some n := by
  constructor
  · intro h
    unfold Die.fromStr at h
    split at h
    case isTrue hhead =>
      cases hp : parseU16 ((trimChars s).dropWhile (· = 'd')) with
      | none => rw [hp] at h; exact absurd h (by simp)
      | some n' =>
        rw [hp] at h
        simp only [Except.ok.injEq, Die.mk.injEq] at h
        subst h
        obtain ⟨t', ht⟩ : ∃ t', trimChars s = 'd' :: t' := by
          cases hc : trimChars s with
          | nil => rw [hc] at hhead; exact absurd hhead (by simp)
          | cons c t' =>
            rw [hc, List.head?_cons, Option.some_inj] at hhead
            subst hhead
            exact ⟨t', rfl⟩
        refine ⟨(t'.takeWhile (· = 'd')).length, t'.dropWhile (· = 'd'), ?_, ?_, ?_⟩
        · rw [ht]
          congr 1
          have htake : t'.takeWhile (· = 'd') =
              List.replicate (t'.takeWhile (· = 'd')).length 'd' :=
            List.eq_replicate_of_mem (fun b hb => by
              have hb' := List.mem_takeWhile_imp hb
              exact of_decide_eq_true hb')
          conv_lhs => rw [← List.takeWhile_append_dropWhile (p := (· = 'd')) (l := t')]
          rw [← htake]
        · intro hc
          have := dropWhile_head_not hc
          simp at this
        · rw [ht] at hp
          rw [List.dropWhile_cons] at hp
          simpa using hp
    case isFalse hhead => exact absurd h (by simp)
  · rintro ⟨k, tail, hshape, hhead, hparse⟩
    have hdrop : List.dropWhile (· = 'd') (trimChars s) = tail := by
      rw [hshape, List.dropWhile_cons]
      rw [if_pos (by decide)]
      rw [dropWhile_all_append _ (fun c hc => by
        rw [List.eq_of_mem_replicate hc]
        decide)]
      cases tail with
      | nil => rfl
      | cons c rest =>
        rw [List.dropWhile_cons, if_neg ?_]
        intro hc
        rw [decide_eq_true_eq] at hc
        subst hc
        exact hhead rfl
    unfold Die.fromStr
    rw [hshape] at hdrop ⊢
    rw [List.head?_cons, if_pos rfl]
    rw [show List.dropWhile (fun x => decide (x = 'd'))
        ('d' :: (List.replicate k 'd' ++ tail)) = tail from hdrop, hparse]

lemma die_fromStr_error {s : List Char}
    (h : exceptIsOk (Die.fromStr s) = false) :
    Die.fromStr s = .error (.Unparseable s) := by
  unfold Die.fromStr at h ⊢
  split at h
  case isTrue hc =>
    rw [if_pos hc]
    cases hp : parseU16 ((trimChars s).dropWhile (· = 'd')) with
    | some n => rw [hp] at h; exact absurd h (by simp [exceptIsOk])
    | none => rfl
  case isFalse hc => rw [if_neg hc]

/-! ### Helpers for the die-term grammar (claim C4) -/

lemma specPart_two_d {s : List Char} (h : 2 ≤ s.count 'd') :
    exceptIsOk (DiceSpecPart.fromStr s) = false := by
  have hmem : 'd' ∈ s := List.count_pos_iff.mp (by omega)
  have hcontains : s.contains 'd' = true := by
    rw [List.elem_iff]
    exact hmem
  have hlen : (splitOnChar 'd' s).length = s.count 'd' + 1 :=
    splitOnChar_length 'd' s
  unfold DiceSpecPart.fromStr
  cases hsp : splitOnChar 'd' s with
  | nil => exact absurd hsp (splitOnChar_ne_nil _ _)
  | cons a l1 =>
    cases l1 with
    | nil => rw [hsp] at hlen; simp at hlen; omega
    | cons b l2 =>
      cases l2 with
      | nil => rw [hsp] at hlen; simp at hlen; omega
      | cons c l3 =>
        simp only [hcontains, if_true, hsp]
        rfl

lemma specPart_empty_sides {cnt : List Char} (h : 'd' ∉ cnt) :
    exceptIsOk (DiceSpecPart.fromStr (cnt ++ ['d'])) = false := by
  have hcontains : (cnt ++ ['d']).contains 'd' = true := by
    rw [List.elem_iff, List.mem_append]
    exact Or.inr (List.mem_singleton_self 'd')
  have hsplit : splitOnChar 'd' (cnt ++ ['d']) = [cnt, []] := by
    rw [show cnt ++ ['d'] = cnt ++ 'd' :: [] from rfl, splitOnChar_group h]
    rfl
  have hdie : Die.fromStr ('d' :: []) = .error (.Unparseable ['d']) := rfl
  unfold DiceSpecPart.fromStr
  simp only [hcontains, if_true, hsplit]
  by_cases hemp : cnt.isEmpty
  · rw [if_pos hemp]
    rw [show ([] : List Char) = [] from rfl]
    simp only [hdie]
    rfl
  · rw [if_neg hemp]
    cases hcp : parseUsize cnt with
    | some c =>
      simp only [hdie]
      rfl
    | none => rfl

lemma specPart_bad_count {cnt tail : List Char} (hd1 : 'd' ∉ cnt)
    (hd2 : 'd' ∉ tail) (hne : cnt ≠ []) (hbad : parseUsize cnt = none) :
    exceptIsOk (DiceSpecPart.fromStr (cnt ++ 'd' :: tail)) = false := by
  have hcontains : (cnt ++ 'd' :: tail).contains 'd' = true := by
    rw [List.elem_iff, List.mem_append]
    exact Or.inr (List.mem_cons_self _ _)
  have hsplit : splitOnChar 'd' (cnt ++ 'd' :: tail) = [cnt, tail] := by
    rw [splitOnChar_group hd1, splitOnChar_no_sep hd2]
  have hemp : ¬cnt.isEmpty = true := by
    rw [List.isEmpty_iff]
    exact hne
  unfold DiceSpecPart.fromStr
  simp only [hcontains, if_true, hsplit, if_neg hemp, hbad]
  rfl

/-! ### Helpers for the canonical rendering (claim C2) -/

lemma joinSep_eq_flatten_intersperse (sep : List Char) :
    ∀ l : List (List Char), joinSep sep l = (List.intersperse sep l).flatten := by
  intro l
  induction l with
  | nil => rfl
  | cons x l' ih =>
    cases l' with
    | nil => simp [joinSep]
    | cons y xs =>
      rw [show joinSep sep (x :: y :: xs) = x ++ sep ++ joinSep sep (y :: xs)
          from rfl,
        List.intersperse_cons_cons, ih]
      simp [List.append_assoc]

/-! ## The claims -/

/-- C1 (counterexample): the round-trip property fails as stated.  The
pure-modifier input `"9"` parses successfully (to no groups, modifier 9),
but its rendering is `"+ 9"`, which does not re-parse: its first
`'+'`-separated segment is empty. -/
theorem C1_counterexample :
    Dice.fromStr "9".toList = .ok ⟨[], some 9⟩ ∧
    Dice.toChars ⟨[], some 9⟩ = "+ 9".toList ∧
    exceptIsOk (Dice.fromStr (Dice.toChars ⟨[], some 9⟩)) = false :=
  ⟨rfl, rfl, rfl⟩

/-- C1 (amended): for every input that parses successfully to an
expression with at least one die group, re-formatting the expression and
parsing the rendered text again succeeds and yields an equal expression
(same groups, same optional modifier). -/
theorem C1_round_trip_amended :
    ∀ (s : List Char) (e : Dice), Dice.fromStr s = .ok e → e.counts ≠ [] →
      Dice.fromStr (Dice.toChars e) = .ok e := by
  intro s e h hne
  obtain ⟨-, -, hb, hmo⟩ := fromStr_ok_inv h
  cases e with
  | mk cs mo => exact fromStr_toChars hb hmo hne

/-- C1 witness: the amended round trip at `"d8 + 3 + 2d4 + -7"`. -/
theorem C1_round_trip_amended_witness :
    Dice.fromStr (Dice.toChars ⟨[(8, 1), (4, 2)], some (-4)⟩) =
      .ok ⟨[(8, 1), (4, 2)], some (-4)⟩ :=
  C1_round_trip_amended "d8 + 3 + 2d4 + -7".toList
    ⟨[(8, 1), (4, 2)], some (-4)⟩ rfl (by decide)

/-- C2 (counterexample): the rendering of `⟨[(6,1)], some 3⟩` (the parse
of `"d6 + 3"`) is `"1d6+ 3"` — the modifier suffix carries no space before
the `'+'` — and not the claimed `"1d6 + 3"`. -/
theorem C2_counterexample :
    Dice.fromStr "d6 + 3".toList = .ok ⟨[(6, 1)], some 3⟩ ∧
    Dice.toChars ⟨[(6, 1)], some 3⟩ = "1d6+ 3".toList ∧
    Dice.toChars ⟨[(6, 1)], some 3⟩ ≠ "1d6 + 3".toList := by
  refine ⟨rfl, rfl, by decide⟩

/-- C2 (amended): the rendering is each group as `<count>d<sides>` joined
by `" + "` in stored order, followed — with no separating space — by
`"+ <modifier>"` exactly when the modifier is present; `some 0` renders an
explicit `"+ 0"` and so differs from an absent modifier. -/
theorem C2_rendering_amended :
    (∀ gs : List (Nat × Nat),
      Dice.toChars ⟨gs, none⟩ =
        (List.intersperse sepPlus (gs.map renderGroup)).flatten) ∧
    (∀ (gs : List (Nat × Nat)) (m : Int),
      Dice.toChars ⟨gs, some m⟩ =
        Dice.toChars ⟨gs, none⟩ ++ '+' :: ' ' :: intToChars m) ∧
    (∀ gs : List (Nat × Nat),
      Dice.toChars ⟨gs, some 0⟩ ≠ Dice.toChars ⟨gs, none⟩) := by
  have hbase : ∀ (gs : List (Nat × Nat)) (mo : Option Int),
      Dice.toChars ⟨gs, mo⟩ =
        joinSep sepPlus (gs.map renderGroup) ++ modSuffix mo :=
    fun gs mo => dice_toChars_eq ⟨gs, mo⟩
  refine ⟨?_, ?_, ?_⟩
  · intro gs
    rw [hbase, joinSep_eq_flatten_intersperse]
    simp [modSuffix]
  · intro gs m
    rw [hbase, hbase]
    simp [modSuffix]
  · intro gs heq
    rw [hbase, hbase] at heq
    simp only [modSuffix, List.append_nil] at heq
    have h2 := List.append_cancel_left
      (heq.trans (List.append_nil (joinSep sepPlus (gs.map renderGroup))).symm)
    exact absurd h2 (by simp)

/-- C2 witness: with groups `[(6,1)]`, a `some 0` modifier renders
differently from an absent modifier. -/
theorem C2_rendering_amended_witness :
    Dice.toChars ⟨[(6, 1)], some 0⟩ ≠ Dice.toChars ⟨[(6, 1)], none⟩ :=
  C2_rendering_amended.2.2 [(6, 1)]

/-- C3 (counterexample): the claim says an embedded sign (`"d+8"`) and
more than one leading `'d'` (`"dd6"`) must fail; both in fact succeed,
because `trim_start_matches('d')` strips every leading `'d'` and Rust's
`u16` parser accepts a leading `'+'`. -/
theorem C3_counterexample :
    Die.fromStr "d+8".toList = .ok ⟨8⟩ ∧
    Die.fromStr "dd6".toList = .ok ⟨6⟩ :=
  ⟨rfl, rfl⟩

/-- C3 (amended): `Die` parsing succeeds with value `n` exactly when the
trimmed text is one or more `'d'`s followed by text accepted by the `u16`
parser (digits with an optional leading `'+'`, value at most 65535)
evaluating to `n`; every failure carries the original text in
`Unparseable`. -/
theorem C3_die_parser_amended :
    ∀ (s : List Char) (n : Nat),
      (Die.fromStr s = .ok ⟨n⟩ ↔
        ∃ k tail, trimChars s = 'd' :: (List.replicate k 'd' ++ tail) ∧
          tail.head? ≠ some 'd' ∧ parseU16 tail = some n) ∧
      (exceptIsOk (Die.fromStr s) = false →
        Die.fromStr s = .error (.Unparseable s)) :=
  fun _ _ => ⟨die_fromStr_ok_iff, die_fromStr_error⟩

/-- C3 witness: `" d20 "` parses to a 20-sided die via the
characterization, and `"x8"` fails with `Unparseable "x8"`. -/
theorem C3_die_parser_amended_witness :
    Die.fromStr " d20 ".toList = .ok ⟨20⟩ ∧
    Die.fromStr "x8".toList = .error (.Unparseable "x8".toList) := by
  constructor
  · exact (C3_die_parser_amended " d20 ".toList 20).1.mpr
      ⟨0, "20".toList, by decide, by decide, by decide⟩
  · exact (C3_die_parser_amended "x8".toList 0).2 (by decide)

/-- C4 (counterexample): the claim says a signed count such as `"+2d6"`
must fail; it in fact parses to a die-term with count 2, because Rust's
`usize` parser accepts a leading `'+'`. -/
theorem C4_counterexample :
    DiceSpecPart.fromStr "+2d6".toList = .ok (.die ⟨6⟩ 2) := rfl

/-- C4 (amended): die-term grammar — an absent count defaults to 1; a
present count is accepted exactly when the `usize` parser accepts it
(digits with an optional leading `'+'`); and the malformed shapes (more
than one `'d'`, empty sides, non-numeric count) fail. -/
theorem C4_die_term_grammar_amended :
    (∀ (tail : List Char) (sd : Nat), parseU16 tail = some sd →
      DiceSpecPart.fromStr ('d' :: tail) = .ok (.die ⟨sd⟩ 1)) ∧
    (∀ (cnt tail : List Char) (c sd : Nat), parseUsize cnt = some c →
      parseU16 tail = some sd →
      DiceSpecPart.fromStr (cnt ++ 'd' :: tail) = .ok (.die ⟨sd⟩ c)) ∧
    (∀ s : List Char, 2 ≤ s.count 'd' →
      exceptIsOk (DiceSpecPart.fromStr s) = false) ∧
    (∀ cnt : List Char, 'd' ∉ cnt →
      exceptIsOk (DiceSpecPart.fromStr (cnt ++ ['d'])) = false) ∧
    (∀ cnt tail : List Char, 'd' ∉ cnt → 'd' ∉ tail → cnt ≠ [] →
      parseUsize cnt = none →
      exceptIsOk (DiceSpecPart.fromStr (cnt ++ 'd' :: tail)) = false) :=
  ⟨fun _ _ h => specPart_die_nocount h,
   fun _ _ _ _ h1 h2 => specPart_die_count h1 h2,
   fun _ h => specPart_two_d h,
   fun _ h => specPart_empty_sides h,
   fun _ _ h1 h2 h3 h4 => specPart_bad_count h1 h2 h3 h4⟩

/-- C4 witness: `"d6"` defaults to count 1, `"+2d6"` parses with count 2,
and `"3dd"` fails. -/
theorem C4_die_term_grammar_amended_witness :
    DiceSpecPart.fromStr "d6".toList = .ok (.die ⟨6⟩ 1) ∧
    DiceSpecPart.fromStr "+2d6".toList = .ok (.die ⟨6⟩ 2) ∧
    exceptIsOk (DiceSpecPart.fromStr "3dd".toList) = false := by
  refine ⟨?_, ?_, ?_⟩
  · exact C4_die_term_grammar_amended.1 "6".toList 6 (by decide)
  · exact C4_die_term_grammar_amended.2.1 "+2".toList "6".toList 2 6
      (by decide) (by decide)
  · exact C4_die_term_grammar_amended.2.2.1 "3dd".toList (by decide)

/-- C5 (counterexample): the claim quantifies over every `sides > 0`, but
side counts are parsed as `u16`: at `sides = 65536` the string
`"d65536"` fails to parse. -/
theorem C5_counterexample :
    0 < 65536 ∧
    exceptIsOk (Dice.fromStr ('d' :: natToChars 65536)) = false :=
  ⟨by decide, rfl⟩

/-- C5 (amended): for every `sides` with `1 ≤ sides ≤ 65535` (the `u16`
range), parsing `"d<sides>"` succeeds with a single one-die group and no
modifier, and — assuming the sample lies in `[1, sides]` — the total of
evaluating it lies in `[1, sides]`. -/
theorem C5_range_amended :
    ∀ (sides : Nat) (g : Nat → Nat), 1 ≤ sides → sides ≤ 65535 →
      1 ≤ g 0 → g 0 ≤ sides →
      Dice.fromStr ('d' :: natToChars sides) = .ok ⟨[(sides, 1)], none⟩ ∧
      1 ≤ ((Dice.mk [(sides, 1)] none).roll g).total ∧
      ((Dice.mk [(sides, 1)] none).roll g).total ≤ (sides : Int) := by
  intro sides g _ h2 hg1 hg2
  refine ⟨fromStr_single_die h2, ?_, ?_⟩
  · rw [roll_single]
    exact_mod_cast hg1
  · rw [roll_single]
    exact_mod_cast hg2

/-- C5 witness: `sides = 6` with a sample of 4. -/
theorem C5_range_amended_witness :
    Dice.fromStr ('d' :: natToChars 6) = .ok ⟨[(6, 1)], none⟩ ∧
    1 ≤ ((Dice.mk [(6, 1)] none).roll (fun _ => 4)).total ∧
    ((Dice.mk [(6, 1)] none).roll (fun _ => 4)).total ≤ (6 : Int) :=
  C5_range_amended 6 (fun _ => 4) (by decide) (by decide) (by decide)
    (by decide)

/-- C6 (counterexample): the modifier is accumulated with `i32` addition,
which wraps: `"2147483647 + 1"` parses with modifier `-2147483648`, not
the algebraic sum `2147483648` of its two modifier terms. -/
theorem C6_counterexample :
    Dice.fromStr "2147483647 + 1".toList = .ok ⟨[], some (-2147483648)⟩ ∧
    modTermsOf "2147483647 + 1".toList = [2147483647, 1] ∧
    (2147483647 : Int) + 1 ≠ -2147483648 := by
  refine ⟨rfl, rfl, by decide⟩

/-- C6 (amended): the parsed modifier is `none` exactly when the input has
no modifier terms; otherwise it is the 32-bit two's-complement reduction of
their algebraic sum — equal to the algebraic sum whenever that sum lies in
the `i32` range. -/
theorem C6_modifier_amended :
    ∀ (s : List Char) (e : Dice), Dice.fromStr s = .ok e →
      (e.modifier = none ↔ modTermsOf s = []) ∧
      (modTermsOf s ≠ [] →
        e.modifier = some (wrap32 (modTermsOf s).sum)) ∧
      (-(2 ^ 31) ≤ (modTermsOf s).sum → (modTermsOf s).sum < 2 ^ 31 →
        modTermsOf s ≠ [] → e.modifier = some (modTermsOf s).sum) := by
  intro s e h
  obtain ⟨-, hmod, -, -⟩ := fromStr_ok_inv h
  have hchar := modAcc_none_char (modTermsOf s) (modTermsOf_range (s := s))
  refine ⟨?_, ?_, ?_⟩
  · rw [hmod]
    exact hchar.1
  · intro hne
    rw [hmod]
    exact hchar.2 hne
  · intro hlo hhi hne
    rw [hmod, hchar.2 hne, wrap32_eq_self hlo hhi]

/-- C6 witness: `"d8 + 3 + 2d4 + -7"` has modifier terms `[3, -7]` and
parses with modifier `some (-4)`, their algebraic sum. -/
theorem C6_modifier_amended_witness :
    Dice.fromStr "d8 + 3 + 2d4 + -7".toList =
      .ok ⟨[(8, 1), (4, 2)], some (-4)⟩ ∧
    (⟨[(8, 1), (4, 2)], some (-4)⟩ : Dice).modifier =
      some (modTermsOf "d8 + 3 + 2d4 + -7".toList).sum := by
  refine ⟨rfl, ?_⟩
  exact (C6_modifier_amended "d8 + 3 + 2d4 + -7".toList
    ⟨[(8, 1), (4, 2)], some (-4)⟩ (by decide)).2.2 (by decide) (by decide)
    (by decide)

/-- C7: for every successfully parsed input, the groups are exactly the
die-terms of the input, one `(sides, count)` entry per term, in
left-to-right encounter order, with no sorting and no merging; a
pure-modifier input yields no groups. -/
theorem C7_groups_in_order :
    ∀ (s : List Char) (e : Dice), Dice.fromStr s = .ok e →
      e.counts = dieTermsOf s := by
  intro s e h
  exact (fromStr_ok_inv h).1

/-- C7 witness: `"d6 + d6"` yields two separate `(6,1)` groups; `"9"`
yields none. -/
theorem C7_groups_in_order_witness :
    (Dice.fromStr "d6 + d6".toList = .ok ⟨[(6, 1), (6, 1)], none⟩ ∧
      ([(6, 1), (6, 1)] : List (Nat × Nat)) = dieTermsOf "d6 + d6".toList) ∧
    (Dice.fromStr "9".toList = .ok ⟨[], some 9⟩ ∧
      ([] : List (Nat × Nat)) = dieTermsOf "9".toList) := by
  refine ⟨⟨rfl, ?_⟩, rfl, ?_⟩
  · exact C7_groups_in_order "d6 + d6".toList ⟨[(6, 1), (6, 1)], none⟩ rfl
  · exact C7_groups_in_order "9".toList ⟨[], some 9⟩ rfl

/-- C9: the direct constructor sorts the given groups by descending side
count with a stable sort — the result is a permutation of the input,
sorted descending on sides, preserving for each side value the exact
subsequence of entries having it — and keeps the modifier unchanged. -/
theorem C9_constructor_canonicalization :
    ∀ (counts : List (Nat × Nat)) (modifier : Option Int),
      (Dice.new counts modifier).modifier = modifier ∧
      List.Perm (Dice.new counts modifier).counts counts ∧
      List.Sorted (fun a b : Nat × Nat => b.1 ≤ a.1)
        (Dice.new counts modifier).counts ∧
      (∀ v : Nat,
        (Dice.new counts modifier).counts.filter (fun p => decide (p.1 = v)) =
          counts.filter (fun p => decide (p.1 = v))) :=
  fun counts _ => ⟨rfl, List.perm_insertionSort newLe counts,
    sorted_new counts, fun v => filter_insertionSort v counts⟩

/-- C10: any input with an empty trimmed `'+'`-separated segment — the
empty string, a whitespace-only string, a leading or trailing `'+'`, or
two consecutive `'+'` — fails to parse. -/
theorem C10_empty_segments_rejected :
    ∀ s : List Char, (∃ p ∈ splitOnChar '+' s, trimChars p = []) →
      exceptIsOk (Dice.fromStr s) = false := by
  intro s h
  exact fromStr_error_of_empty_seg h

/-- C10 witness: the empty string, a whitespace-only string, and a double
`'+'` all fail. -/
theorem C10_empty_segments_rejected_witness :
    exceptIsOk (Dice.fromStr "".toList) = false ∧
    exceptIsOk (Dice.fromStr "   ".toList) = false ∧
    exceptIsOk (Dice.fromStr "1 + + 2".toList) = false := by
  refine ⟨?_, ?_, ?_⟩
  · exact C10_empty_segments_rejected "".toList ⟨[], by decide, by decide⟩
  · exact C10_empty_segments_rejected "   ".toList ⟨"   ".toList, by decide,
      by decide⟩
  · exact C10_empty_segments_rejected "1 + + 2".toList ⟨" ".toList, by decide,
      by decide⟩

end SoloDice
